import Mathlib

/-!
Shallow embedding of `src/SBM_bernoulli.cpp` (missSBM numerical core):
variational-EM kernels for a sparse Bernoulli stochastic block model.
Matrices are dense functions over `Fin`; sparse-matrix nonzero iteration
is modelled as summation guarded by a nonzero test, which is sound since
real addition is commutative and associative (iteration order is
irrelevant).  Floating-point doubles are modelled by `ℝ`; the IEEE
behaviour of division by zero, which the code relies on in the
closed-form M-step, is modelled by the explicit codomain `DVal`
(finite value, `+Inf`, `-Inf` or `NaN`).
-/

namespace MissSBM

noncomputable section

open Matrix Finset

/-- The armadillo `accu` on a matrix: sum of all entries. -/
def accu {n m : ℕ} (A : Matrix (Fin n) (Fin m) ℝ) : ℝ :=
  ∑ i, ∑ j, A i j

/-- Armadillo `%`: elementwise (Hadamard) product. -/
def hprod {n m : ℕ} (A B : Matrix (Fin n) (Fin m) ℝ) : Matrix (Fin n) (Fin m) ℝ :=
  Matrix.of fun i j => A i j * B i j

/-- Elementwise `theta / (1 - theta)` as in `theta/(1-theta)`. -/
def odds {n m : ℕ} (theta : Matrix (Fin n) (Fin m) ℝ) : Matrix (Fin n) (Fin m) ℝ :=
  Matrix.of fun i j => theta i j / (1 - theta i j)

/-- Elementwise `1 - theta`. -/
def oneMinus {n m : ℕ} (theta : Matrix (Fin n) (Fin m) ℝ) : Matrix (Fin n) (Fin m) ℝ :=
  Matrix.of fun i j => 1 - theta i j

/-- Elementwise `log` of a matrix, as armadillo `log(...)`. -/
def mlog {n m : ℕ} (A : Matrix (Fin n) (Fin m) ℝ) : Matrix (Fin n) (Fin m) ℝ :=
  Matrix.of fun i j => Real.log (A i j)

/-- The vector `log(pi)` of a column vector, as a `Q × 1` matrix so that the source
expression `Z * log(pi)` is a genuine matrix product. -/
def vecLog {Q : ℕ} (pi : Fin Q → ℝ) : Matrix (Fin Q) (Fin 1) ℝ :=
  Matrix.of fun q _ => Real.log (pi q)

/-- Source `vLL_complete_sparse_bernoulli_undirected_nocovariate`:
`.5*accu(Z.t()*Y*Z % log(theta/(1-theta))) + .5*accu(Z.t()*R*Z % log(1-theta))
 + accu(Z*log(pi))`. -/
def vLL_complete_sparse_bernoulli_undirected_nocovariate {N Q : ℕ}
    (Y R : Matrix (Fin N) (Fin N) ℝ) (Z : Matrix (Fin N) (Fin Q) ℝ)
    (theta : Matrix (Fin Q) (Fin Q) ℝ) (pi : Fin Q → ℝ) : ℝ :=
  0.5 * accu (hprod (Zᵀ * Y * Z) (mlog (odds theta))) +
    0.5 * accu (hprod (Zᵀ * R * Z) (mlog (oneMinus theta))) + accu (Z * vecLog pi)

/-- Source `vLL_complete_sparse_bernoulli_directed_nocovariate`: same accumulation
without the `0.5` factors. -/
def vLL_complete_sparse_bernoulli_directed_nocovariate {N Q : ℕ}
    (Y R : Matrix (Fin N) (Fin N) ℝ) (Z : Matrix (Fin N) (Fin Q) ℝ)
    (theta : Matrix (Fin Q) (Fin Q) ℝ) (pi : Fin Q → ℝ) : ℝ :=
  accu (hprod (Zᵀ * Y * Z) (mlog (odds theta))) +
    accu (hprod (Zᵀ * R * Z) (mlog (oneMinus theta))) + accu (Z * vecLog pi)

/-- IEEE-754 value classes relevant to the closed-form M-step: a finite
double, the two infinities, or `NaN`. -/
inductive DVal : Type
  | finite : ℝ → DVal
  | posInf : DVal
  | negInf : DVal
  | nan : DVal

/-- Predicate `DVal.isFinite d` holds when `d` is a finite value. -/
def DVal.isFinite : DVal → Prop
  | DVal.finite _ => True
  | _ => False

/-- IEEE double division on exact values: ordinary quotient when the
denominator is nonzero, otherwise `0/0 = NaN` and `x/0 = ±Inf` by the
sign of `x`. -/
def fdiv (a b : ℝ) : DVal :=
  if b = 0 then
    if a = 0 then DVal.nan else if 0 < a then DVal.posInf else DVal.negInf
  else DVal.finite (a / b)

/-- Source `M_step_sparse_bernoulli_undirected_nocovariate`: elementwise
`(Z.t()*Y*Z) / (Z.t()*R*Z)` with IEEE division. -/
def M_step_sparse_bernoulli_undirected_nocovariate {N Q : ℕ}
    (Y R : Matrix (Fin N) (Fin N) ℝ) (Z : Matrix (Fin N) (Fin Q) ℝ) :
    Matrix (Fin Q) (Fin Q) DVal :=
  Matrix.of fun q l => fdiv ((Zᵀ * Y * Z) q l) ((Zᵀ * R * Z) q l)

/-- Source `M_step_sparse_bernoulli_directed_nocovariate`: elementwise
`(Z.t()*Y*Z) / (Z.t()*R*Z)` with IEEE division (same body as the
undirected variant in the source). -/
def M_step_sparse_bernoulli_directed_nocovariate {N Q : ℕ}
    (Y R : Matrix (Fin N) (Fin N) ℝ) (Z : Matrix (Fin N) (Fin Q) ℝ) :
    Matrix (Fin Q) (Fin Q) DVal :=
  Matrix.of fun q l => fdiv ((Zᵀ * Y * Z) q l) ((Zᵀ * R * Z) q l)

/-- Source `M_step_sparse_bernoulli_directed_covariates`: despite its name it
takes only `(Y, R, Z)` — no covariate tensor, no `M`, no `Gamma` — and
computes elementwise `(Z.t()*Y*Z) / (Z.t()*R*Z)` exactly as the
no-covariate M-steps. -/
def M_step_sparse_bernoulli_directed_covariates {N Q : ℕ}
    (Y R : Matrix (Fin N) (Fin N) ℝ) (Z : Matrix (Fin N) (Fin Q) ℝ) :
    Matrix (Fin Q) (Fin Q) DVal :=
  Matrix.of fun q l => fdiv ((Zᵀ * Y * Z) q l) ((Zᵀ * R * Z) q l)

/-- Source `vLL_complete_sparse_bernoulli_undirected_covariates`: prior term plus,
for every nonzero `Y(i,j)` with `i > j` (strict lower triangle of the
sparse iteration), `Σ_{q,l} Z(i,q)·Z(j,l)·(Gamma(q,l) + M(i,j))`, plus,
for every nonzero `R(i,j)` with `i > j`, the penalty
`-Σ_{q,l} Z(i,q)·Z(j,l)·log(1+exp(Gamma(q,l)+M(i,j)))`. -/
def vLL_complete_sparse_bernoulli_undirected_covariates {N Q : ℕ}
    (Y R M : Matrix (Fin N) (Fin N) ℝ) (Z : Matrix (Fin N) (Fin Q) ℝ)
    (Gamma : Matrix (Fin Q) (Fin Q) ℝ) (pi : Fin Q → ℝ) : ℝ :=
  accu (Z * vecLog pi) +
    (∑ i, ∑ j, if Y i j ≠ 0 ∧ j < i then
        ∑ q, ∑ l, Z i q * Z j l * (Gamma q l + M i j) else 0) +
    (∑ i, ∑ j, if R i j ≠ 0 ∧ j < i then
        ∑ q, ∑ l, -(Z i q * Z j l * Real.log (1 + Real.exp (Gamma q l + M i j)))
      else 0)

/-- Index bound: the column-major position `q + Q*l` of `Gamma(q,l)` lies
inside the `Q*Q` head of the flat parameter vector. -/
def gammaIdx_lt {Q K : ℕ} (q l : Fin Q) : q.val + Q * l.val < Q * Q + K := by
  have hq := q.isLt
  have hl := l.isLt
  nlinarith

/-- Unpack `Gamma` from the flat parameter vector, column-major as in
`arma::mat gamma(&param[0], Q, Q, true)`. -/
def gammaOf {Q K : ℕ} (param : Fin (Q * Q + K) → ℝ) : Matrix (Fin Q) (Fin Q) ℝ :=
  Matrix.of fun q l => param ⟨q.val + Q * l.val, gammaIdx_lt q l⟩

/-- Unpack `beta` from the flat parameter vector, as in
`arma::vec beta(&param[Q*Q], K, true)`. -/
def betaOf {Q K : ℕ} (param : Fin (Q * Q + K) → ℝ) : Fin K → ℝ :=
  fun k => param ⟨Q * Q + k.val, Nat.add_lt_add_left k.isLt (Q * Q)⟩

/-- The column-major position `q + Q*l` also lies below `Q*Q` itself. -/
def gammaIdx_lt_sq {Q : ℕ} (q l : Fin Q) : q.val + Q * l.val < Q * Q := by
  have hq := q.isLt
  have hl := l.isLt
  nlinarith

def pos_of_lt_sq {m Q : ℕ} (h : m < Q * Q) : 0 < Q :=
  Nat.pos_of_ne_zero (fun hQ => by subst hQ; simp at h)

def modIdx_lt {m Q : ℕ} (h : m < Q * Q) : m % Q < Q :=
  Nat.mod_lt _ (pos_of_lt_sq h)

def divIdx_lt {m Q : ℕ} (h : m < Q * Q) : m / Q < Q :=
  (Nat.div_lt_iff_lt_mul (pos_of_lt_sq h)).mpr h

def subIdx_lt {m a K : ℕ} (h1 : m < a + K) (h2 : ¬ m < a) : m - a < K := by
  omega

/-- Source `M_step_sparse_bernoulli_undirected_covariates`: iterate the strict
lower triangle of the nonzeros of `R`; for each such dyad compute
`mu = beta·phi` with `phi = X.tube(i,j)`, the outer product
`ZiqZjl = Z.row(i).t()*Z.row(j)`, accumulate the log-likelihood
`accu(ZiqZjl % (Y(i,j)*(gamma+mu) - log(1+exp(gamma+mu))))`, the `Gamma`
gradient `delta = ZiqZjl % (Y(i,j) - 1/(1+exp(-(gamma+mu))))` and the
`beta` gradient `accu(delta)*phi`; return
`(-loglik, -join_cols(vectorise(gr_gamma), gr_beta))` with `vectorise`
column-major. -/
def M_step_sparse_bernoulli_undirected_covariates {N Q K : ℕ}
    (param : Fin (Q * Q + K) → ℝ) (Y R : Matrix (Fin N) (Fin N) ℝ)
    (X : Fin N → Fin N → Fin K → ℝ) (Z : Matrix (Fin N) (Fin Q) ℝ) :
    ℝ × (Fin (Q * Q + K) → ℝ) :=
  let gamma := gammaOf param
  let beta := betaOf param
  let mu : Fin N → Fin N → ℝ := fun i j => ∑ k, beta k * X i j k
  let loglik : ℝ := ∑ i, ∑ j, if R i j ≠ 0 ∧ j < i then
      ∑ q, ∑ l, (Z i q * Z j l) *
        (Y i j * (gamma q l + mu i j) -
          Real.log (1 + Real.exp (gamma q l + mu i j))) else 0
  let delta : Fin N → Fin N → Matrix (Fin Q) (Fin Q) ℝ := fun i j =>
    Matrix.of fun q l => (Z i q * Z j l) *
      (Y i j - 1 / (1 + Real.exp (-(gamma q l + mu i j))))
  let gr_gamma : Matrix (Fin Q) (Fin Q) ℝ :=
    Matrix.of fun q l => ∑ i, ∑ j,
      if R i j ≠ 0 ∧ j < i then delta i j q l else 0
  let gr_beta : Fin K → ℝ := fun k => ∑ i, ∑ j,
      if R i j ≠ 0 ∧ j < i then accu (delta i j) * X i j k else 0
  let grad : Fin (Q * Q + K) → ℝ := fun idx =>
    if h : idx.val < Q * Q then
      gr_gamma ⟨idx.val % Q, modIdx_lt h⟩ ⟨idx.val / Q, divIdx_lt h⟩
    else gr_beta ⟨idx.val - Q * Q, subIdx_lt idx.isLt h⟩
  (-loglik, fun idx => -(grad idx))

/-- Row maximum, as `arma::max` over a row vector (needs a nonempty row). -/
def rowMax {Q : ℕ} [NeZero Q] (x : Fin Q → ℝ) : ℝ :=
  Finset.univ.sup'
    (Finset.univ_nonempty_iff.mpr ⟨⟨0, Nat.pos_of_ne_zero (NeZero.ne Q)⟩⟩) x

/-- The stabilised softmax applied to every row by each E-step:
`x = exp(x - max(x)) / sum(exp(x - max(x)))`. -/
def softmaxRow {Q : ℕ} [NeZero Q] (x : Fin Q → ℝ) : Fin Q → ℝ :=
  fun q => Real.exp (x q - rowMax x) / ∑ l, Real.exp (x l - rowMax x)

/-- Source `E_step_sparse_bernoulli_undirected_nocovariate`:
`log_tau = Y*Z*log(theta/(1-theta)) + R*Z*log(1-theta) + log_lambda`,
then `log_tau.each_row() += log(pi)` and the row-wise softmax. -/
def E_step_sparse_bernoulli_undirected_nocovariate {N Q : ℕ} [NeZero Q]
    (Y R : Matrix (Fin N) (Fin N) ℝ) (Z : Matrix (Fin N) (Fin Q) ℝ)
    (theta : Matrix (Fin Q) (Fin Q) ℝ) (pi : Fin Q → ℝ) (log_lambda : ℝ) :
    Matrix (Fin N) (Fin Q) ℝ :=
  let log_tau : Matrix (Fin N) (Fin Q) ℝ := Matrix.of fun i q =>
    (Y * Z * mlog (odds theta)) i q + (R * Z * mlog (oneMinus theta)) i q +
      log_lambda + Real.log (pi q)
  Matrix.of fun i q => softmaxRow (fun l => log_tau i l) q

/-- Source `E_step_sparse_bernoulli_directed_nocovariate`: adds the outgoing
(transposed-parameter) and incoming contributions before the same
row-wise softmax. -/
def E_step_sparse_bernoulli_directed_nocovariate {N Q : ℕ} [NeZero Q]
    (Y R : Matrix (Fin N) (Fin N) ℝ) (Z : Matrix (Fin N) (Fin Q) ℝ)
    (theta : Matrix (Fin Q) (Fin Q) ℝ) (pi : Fin Q → ℝ) (log_lambda : ℝ) :
    Matrix (Fin N) (Fin Q) ℝ :=
  let log_tau : Matrix (Fin N) (Fin Q) ℝ := Matrix.of fun i q =>
    (Y * Z * (mlog (odds theta))ᵀ) i q + (R * Z * (mlog (oneMinus theta))ᵀ) i q +
      (Yᵀ * Z * mlog (odds theta)) i q + (Rᵀ * Z * mlog (oneMinus theta)) i q +
      log_lambda + Real.log (pi q)
  Matrix.of fun i q => softmaxRow (fun l => log_tau i l) q

/-- Source `E_step_sparse_bernoulli_undirected_covariates`: base score `Y*Z*Gamma`,
then for every nonzero `R(i,j)` subtract
`Σ_l Z(j,l)·log(1+exp(Gamma(q,l)+M(i,j)))` from `log_tau(i,q)`, add
`log(pi)` row-wise, and the same row-wise softmax. -/
def E_step_sparse_bernoulli_undirected_covariates {N Q : ℕ} [NeZero Q]
    (Y R M : Matrix (Fin N) (Fin N) ℝ) (Z : Matrix (Fin N) (Fin Q) ℝ)
    (Gamma : Matrix (Fin Q) (Fin Q) ℝ) (pi : Fin Q → ℝ) :
    Matrix (Fin N) (Fin Q) ℝ :=
  let log_tau : Matrix (Fin N) (Fin Q) ℝ := Matrix.of fun i q =>
    (Y * Z * Gamma) i q -
      (∑ j, if R i j ≠ 0 then
        ∑ l, Z j l * Real.log (1 + Real.exp (Gamma q l + M i j)) else 0) +
      Real.log (pi q)
  Matrix.of fun i q => softmaxRow (fun l => log_tau i l) q

/-- The logistic sigmoid `1 / (1 + exp(-x))` as written in the source. -/
def sigmoid (x : ℝ) : ℝ := 1 / (1 + Real.exp (-x))

def Yc6 : Matrix (Fin 3) (Fin 3) ℝ := !![0,0,1; 0,0,0; 1,0,0]

def Rc6 : Matrix (Fin 3) (Fin 3) ℝ := !![0,1,1; 1,0,1; 1,1,0]

def Zc6 : Matrix (Fin 3) (Fin 2) ℝ := !![1,0; 1,0; 0,1]

def oneMat1 : Matrix (Fin 1) (Fin 1) ℝ := fun _ _ => 1

def halfMat1 : Matrix (Fin 1) (Fin 1) ℝ := fun _ _ => 1/2

def halfVec1 : Fin 1 → ℝ := fun _ => 1/2

/-! Concrete data for the lower-triangle dependence witness: two pairs of
`2 × 2` matrices agreeing at the single strict-lower-triangle entry
`(1,0)` and differing on the diagonal and upper triangle. -/

def Yw : Matrix (Fin 2) (Fin 2) ℝ := !![0,5; 1,7]

def Yw2 : Matrix (Fin 2) (Fin 2) ℝ := !![3,0; 1,9]

def Rw : Matrix (Fin 2) (Fin 2) ℝ := !![0,2; 1,0]

def Rw2 : Matrix (Fin 2) (Fin 2) ℝ := !![4,0; 1,6]

def Mw : Matrix (Fin 2) (Fin 2) ℝ := fun _ _ => 0

def Zw : Matrix (Fin 2) (Fin 1) ℝ := fun _ _ => 1

def Gammaw : Matrix (Fin 1) (Fin 1) ℝ := fun _ _ => 0

def paramw : Fin (1 * 1 + 1) → ℝ := fun _ => 0

def Xw : Fin 2 → Fin 2 → Fin 1 → ℝ := fun _ _ _ => 0

/-! Helper lemmas about the embedded armadillo primitives. -/

/-- Sums over the strict lower triangle of the nonzeros of a matrix only
depend on its strict-lower-triangle values. -/
theorem lowerTri_sum_congr {N : ℕ} (A B : Matrix (Fin N) (Fin N) ℝ)
    (f g : Fin N → Fin N → ℝ)
    (hAB : ∀ i j : Fin N, j < i → A i j = B i j)
    (hfg : ∀ i j : Fin N, j < i → f i j = g i j) :
    (∑ i, ∑ j, if A i j ≠ 0 ∧ j < i then f i j else 0) =
      (∑ i, ∑ j, if B i j ≠ 0 ∧ j < i then g i j else 0) := by
  refine Finset.sum_congr rfl fun i _ => Finset.sum_congr rfl fun j _ => ?_
  by_cases hij : j < i
  · rw [hAB i j hij, hfg i j hij]
  · simp [hij]

/-- Entrywise form of the quadratic form `Z.t() * A * Z`. -/
theorem quadForm_apply {N Q : ℕ} (A : Matrix (Fin N) (Fin N) ℝ)
    (Z : Matrix (Fin N) (Fin Q) ℝ) (q l : Fin Q) :
    (Zᵀ * A * Z) q l = ∑ i, ∑ j, Z i q * A i j * Z j l := by
  simp only [Matrix.mul_apply, Matrix.transpose_apply, Finset.sum_mul]
  rw [Finset.sum_comm]

/-- The `accu` of a Hadamard product, entrywise. -/
theorem accu_hprod {n m : ℕ} (A B : Matrix (Fin n) (Fin m) ℝ) :
    accu (hprod A B) = ∑ i, ∑ j, A i j * B i j := rfl

/-- The prior term `accu(Z * log(pi))` as a double sum. -/
theorem accu_prior {N Q : ℕ} (Z : Matrix (Fin N) (Fin Q) ℝ) (pi : Fin Q → ℝ) :
    accu (Z * vecLog pi) = ∑ i, ∑ q, Z i q * Real.log (pi q) := by
  simp [accu, Matrix.mul_apply, vecLog, Fin.sum_univ_one]

/-! Concrete data for the `N = 3`, `Q = 2` scenario of the spec: hard
assignment `Z = [[1,0],[1,0],[0,1]]`, a single undirected edge between
node 1 and node 3 (0-based nodes 0 and 2), fully observed off-diagonal. -/

/-- C6: on the concrete `N = 3`, `Q = 2` scenario (hard assignment
`[[1,0],[1,0],[0,1]]`, single undirected edge between nodes 1 and 3,
fully observed off-diagonal mask), the closed-form M-step returns
`theta[0,1] = theta[1,0] = 1/2` and `theta[0,0] = 0`. -/
theorem C6_mstep_concrete_scenario :
    M_step_sparse_bernoulli_undirected_nocovariate Yc6 Rc6 Zc6 0 1 =
        DVal.finite (1/2) ∧
      M_step_sparse_bernoulli_undirected_nocovariate Yc6 Rc6 Zc6 1 0 =
        DVal.finite (1/2) ∧
      M_step_sparse_bernoulli_undirected_nocovariate Yc6 Rc6 Zc6 0 0 =
        DVal.finite 0 := by
  refine ⟨?_, ?_, ?_⟩ <;>
    norm_num [M_step_sparse_bernoulli_undirected_nocovariate, fdiv,
      Matrix.mul_apply, Fin.sum_univ_succ, Yc6, Rc6, Zc6]

/-- C4: for every `Y`, `R`, `Z`, each entry of the closed-form M-step with
nonzero denominator is the elementwise ratio `(Z'YZ)_{ql} / (Z'RZ)_{ql}`,
and the directed and undirected no-covariate M-steps compute exactly the
same function of `(Y, R, Z)`. -/
theorem C4_mstep_elementwise_ratio {N Q : ℕ}
    (Y R : Matrix (Fin N) (Fin N) ℝ) (Z : Matrix (Fin N) (Fin Q) ℝ)
    (q l : Fin Q) (h : (∑ i, ∑ j, Z i q * R i j * Z j l) ≠ 0) :
    M_step_sparse_bernoulli_undirected_nocovariate Y R Z q l =
        DVal.finite ((∑ i, ∑ j, Z i q * Y i j * Z j l) /
          (∑ i, ∑ j, Z i q * R i j * Z j l)) ∧
      M_step_sparse_bernoulli_directed_nocovariate Y R Z =
        M_step_sparse_bernoulli_undirected_nocovariate Y R Z := by
  constructor
  · show fdiv ((Zᵀ * Y * Z) q l) ((Zᵀ * R * Z) q l) = _
    rw [quadForm_apply, quadForm_apply, fdiv, if_neg h]
  · rfl

/-- Witness for C4 at `N = Q = 1`, `Y = [[3]]`, `R = [[2]]`, `Z = [[1]]`. -/
theorem C4_mstep_elementwise_ratio_witness :
    (∑ i : Fin 1, ∑ j : Fin 1,
        (!![(1:ℝ)]) i 0 * (!![(2:ℝ)]) i j * (!![(1:ℝ)]) j 0) ≠ 0 ∧
      (M_step_sparse_bernoulli_undirected_nocovariate !![(3:ℝ)] !![(2:ℝ)]
          !![(1:ℝ)] 0 0 =
          DVal.finite ((∑ i : Fin 1, ∑ j : Fin 1,
              (!![(1:ℝ)]) i 0 * (!![(3:ℝ)]) i j * (!![(1:ℝ)]) j 0) /
            (∑ i : Fin 1, ∑ j : Fin 1,
              (!![(1:ℝ)]) i 0 * (!![(2:ℝ)]) i j * (!![(1:ℝ)]) j 0)) ∧
        M_step_sparse_bernoulli_directed_nocovariate !![(3:ℝ)] !![(2:ℝ)]
            !![(1:ℝ)] =
          M_step_sparse_bernoulli_undirected_nocovariate !![(3:ℝ)] !![(2:ℝ)]
            !![(1:ℝ)]) :=
  ⟨by norm_num [Fin.sum_univ_one],
    C4_mstep_elementwise_ratio !![(3:ℝ)] !![(2:ℝ)] !![(1:ℝ)] 0 0
      (by norm_num [Fin.sum_univ_one])⟩

/-- C7: whenever an entry of `Z'RZ` is zero, the closed-form M-step yields
a non-finite value there — `NaN` when the matching `Z'YZ` entry is also
zero, `±Inf` otherwise — and every entry with nonzero denominator is
still the plain ratio (no guard, no error, no change elsewhere). -/
theorem C7_mstep_zero_denominator {N Q : ℕ}
    (Y R : Matrix (Fin N) (Fin N) ℝ) (Z : Matrix (Fin N) (Fin Q) ℝ)
    (q l : Fin Q) (h : (Zᵀ * R * Z) q l = 0) :
    ¬ (M_step_sparse_bernoulli_undirected_nocovariate Y R Z q l).isFinite ∧
      ((Zᵀ * Y * Z) q l = 0 →
        M_step_sparse_bernoulli_undirected_nocovariate Y R Z q l = DVal.nan) ∧
      ((Zᵀ * Y * Z) q l ≠ 0 →
        M_step_sparse_bernoulli_undirected_nocovariate Y R Z q l = DVal.posInf ∨
        M_step_sparse_bernoulli_undirected_nocovariate Y R Z q l = DVal.negInf) ∧
      (∀ q' l' : Fin Q, (Zᵀ * R * Z) q' l' ≠ 0 →
        M_step_sparse_bernoulli_undirected_nocovariate Y R Z q' l' =
          DVal.finite ((Zᵀ * Y * Z) q' l' / (Zᵀ * R * Z) q' l')) := by
  have hM : ∀ q' l' : Fin Q,
      M_step_sparse_bernoulli_undirected_nocovariate Y R Z q' l' =
        fdiv ((Zᵀ * Y * Z) q' l') ((Zᵀ * R * Z) q' l') := fun _ _ => rfl
  refine ⟨?_, ?_, ?_, ?_⟩
  · rw [hM, fdiv, if_pos h]
    by_cases hy : (Zᵀ * Y * Z) q l = 0
    · rw [if_pos hy]; exact not_false
    · rw [if_neg hy]
      by_cases hp : 0 < (Zᵀ * Y * Z) q l
      · rw [if_pos hp]; exact not_false
      · rw [if_neg hp]; exact not_false
  · intro hy
    rw [hM, fdiv, if_pos h, if_pos hy]
  · intro hy
    rw [hM, fdiv, if_pos h, if_neg hy]
    by_cases hp : 0 < (Zᵀ * Y * Z) q l
    · exact Or.inl (by rw [if_pos hp])
    · exact Or.inr (by rw [if_neg hp])
  · intro q' l' h'
    rw [hM, fdiv, if_neg h']

/-- Witness for C7 at `N = Q = 2`, `Z` the identity,
`R = [[0,1],[1,0]]`, `Y = [[1,0],[0,0]]`: entry `(0,0)` has zero
denominator and nonzero numerator. -/
theorem C7_mstep_zero_denominator_witness :
    ((!![(1:ℝ),0;0,1])ᵀ * !![(0:ℝ),1;1,0] * !![(1:ℝ),0;0,1]) 0 0 = 0 ∧
      (¬ (M_step_sparse_bernoulli_undirected_nocovariate !![(1:ℝ),0;0,0]
            !![(0:ℝ),1;1,0] !![(1:ℝ),0;0,1] 0 0).isFinite ∧
        (((!![(1:ℝ),0;0,1])ᵀ * !![(1:ℝ),0;0,0] * !![(1:ℝ),0;0,1]) 0 0 = 0 →
          M_step_sparse_bernoulli_undirected_nocovariate !![(1:ℝ),0;0,0]
            !![(0:ℝ),1;1,0] !![(1:ℝ),0;0,1] 0 0 = DVal.nan) ∧
        (((!![(1:ℝ),0;0,1])ᵀ * !![(1:ℝ),0;0,0] * !![(1:ℝ),0;0,1]) 0 0 ≠ 0 →
          M_step_sparse_bernoulli_undirected_nocovariate !![(1:ℝ),0;0,0]
              !![(0:ℝ),1;1,0] !![(1:ℝ),0;0,1] 0 0 = DVal.posInf ∨
          M_step_sparse_bernoulli_undirected_nocovariate !![(1:ℝ),0;0,0]
              !![(0:ℝ),1;1,0] !![(1:ℝ),0;0,1] 0 0 = DVal.negInf) ∧
        (∀ q' l' : Fin 2,
          ((!![(1:ℝ),0;0,1])ᵀ * !![(0:ℝ),1;1,0] * !![(1:ℝ),0;0,1]) q' l' ≠ 0 →
          M_step_sparse_bernoulli_undirected_nocovariate !![(1:ℝ),0;0,0]
              !![(0:ℝ),1;1,0] !![(1:ℝ),0;0,1] q' l' =
            DVal.finite
              (((!![(1:ℝ),0;0,1])ᵀ * !![(1:ℝ),0;0,0] * !![(1:ℝ),0;0,1]) q' l' /
               ((!![(1:ℝ),0;0,1])ᵀ * !![(0:ℝ),1;1,0] * !![(1:ℝ),0;0,1]) q' l'))) :=
  ⟨by norm_num [Matrix.mul_apply, Fin.sum_univ_succ],
    C7_mstep_zero_denominator !![(1:ℝ),0;0,0] !![(0:ℝ),1;1,0] !![(1:ℝ),0;0,1]
      0 0 (by norm_num [Matrix.mul_apply, Fin.sum_univ_succ])⟩

/-- C9: the M-step named `directed_covariates` takes only `(Y, R, Z)` and
computes exactly the same elementwise ratio `(Z'YZ)/(Z'RZ)` as the
directed no-covariate M-step, for every input. -/
theorem C9_mstep_directed_covariates_ignores_covariates {N Q : ℕ}
    (Y R : Matrix (Fin N) (Fin N) ℝ) (Z : Matrix (Fin N) (Fin Q) ℝ) :
    M_step_sparse_bernoulli_directed_covariates Y R Z =
      M_step_sparse_bernoulli_directed_nocovariate Y R Z := rfl

/-- C1: for all `Y`, `R`, `Z`, `theta` with entries in `(0,1)` and `pi`
with entries in `(0,1)`, the undirected no-covariate likelihood evaluator
returns exactly
`0.5·Σ(Z'YZ ⊙ log(theta/(1-theta))) + 0.5·Σ(Z'RZ ⊙ log(1-theta)) + Σ(Z log pi)`,
all sums running over all entries. -/
theorem C1_vLL_undirected_nocovariate_formula {N Q : ℕ}
    (Y R : Matrix (Fin N) (Fin N) ℝ) (Z : Matrix (Fin N) (Fin Q) ℝ)
    (theta : Matrix (Fin Q) (Fin Q) ℝ) (pi : Fin Q → ℝ)
    (_htheta : ∀ q l, 0 < theta q l ∧ theta q l < 1)
    (_hpi : ∀ q, 0 < pi q ∧ pi q < 1) :
    vLL_complete_sparse_bernoulli_undirected_nocovariate Y R Z theta pi =
      0.5 * (∑ q, ∑ l, (∑ i, ∑ j, Z i q * Y i j * Z j l) *
          Real.log (theta q l / (1 - theta q l))) +
        0.5 * (∑ q, ∑ l, (∑ i, ∑ j, Z i q * R i j * Z j l) *
          Real.log (1 - theta q l)) +
        ∑ i, ∑ q, Z i q * Real.log (pi q) := by
  unfold vLL_complete_sparse_bernoulli_undirected_nocovariate
  rw [accu_prior]
  simp only [accu_hprod, quadForm_apply, mlog, odds, oneMinus, Matrix.of_apply]

/-- Witness for C1 at `N = Q = 1` with `Y = R = Z = [[1]]`,
`theta = [[1/2]]`, `pi = [1/2]`. -/
theorem C1_vLL_undirected_nocovariate_formula_witness :
    (∀ q l : Fin 1, 0 < halfMat1 q l ∧ halfMat1 q l < 1) ∧
      (∀ q : Fin 1, 0 < halfVec1 q ∧ halfVec1 q < 1) ∧
      vLL_complete_sparse_bernoulli_undirected_nocovariate oneMat1 oneMat1
          oneMat1 halfMat1 halfVec1 =
        0.5 * (∑ q, ∑ l, (∑ i, ∑ j : Fin 1,
            oneMat1 i q * oneMat1 i j * oneMat1 j l) *
            Real.log (halfMat1 q l / (1 - halfMat1 q l))) +
          0.5 * (∑ q, ∑ l, (∑ i, ∑ j : Fin 1,
            oneMat1 i q * oneMat1 i j * oneMat1 j l) *
            Real.log (1 - halfMat1 q l)) +
          ∑ i, ∑ q : Fin 1, oneMat1 i q * Real.log (halfVec1 q) :=
  ⟨fun _ _ => by norm_num [halfMat1], fun _ => by norm_num [halfVec1],
    C1_vLL_undirected_nocovariate_formula oneMat1 oneMat1 oneMat1 halfMat1
      halfVec1 (fun _ _ => by norm_num [halfMat1])
      (fun _ => by norm_num [halfVec1])⟩

/-- C5: for symmetric `Y` and `R` and `theta` with entries in `(0,1)`, the
directed result minus the prior term `Σ(Z log pi)` is exactly twice the
undirected result minus the prior term. -/
theorem C5_directed_vs_undirected_factor_two {N Q : ℕ}
    (Y R : Matrix (Fin N) (Fin N) ℝ) (Z : Matrix (Fin N) (Fin Q) ℝ)
    (theta : Matrix (Fin Q) (Fin Q) ℝ) (pi : Fin Q → ℝ)
    (_hY : Yᵀ = Y) (_hR : Rᵀ = R)
    (_htheta : ∀ q l, 0 < theta q l ∧ theta q l < 1) :
    vLL_complete_sparse_bernoulli_directed_nocovariate Y R Z theta pi -
        (∑ i, ∑ q, Z i q * Real.log (pi q)) =
      2 * (vLL_complete_sparse_bernoulli_undirected_nocovariate Y R Z theta pi -
        (∑ i, ∑ q, Z i q * Real.log (pi q))) := by
  unfold vLL_complete_sparse_bernoulli_directed_nocovariate
    vLL_complete_sparse_bernoulli_undirected_nocovariate
  rw [accu_prior]
  ring

/-- Witness for C5 at `N = Q = 1` with symmetric `Y = R = [[1]]`. -/
theorem C5_directed_vs_undirected_factor_two_witness :
    oneMat1ᵀ = oneMat1 ∧
      (∀ q l : Fin 1, 0 < halfMat1 q l ∧ halfMat1 q l < 1) ∧
      vLL_complete_sparse_bernoulli_directed_nocovariate oneMat1 oneMat1
          oneMat1 halfMat1 halfVec1 -
          (∑ i, ∑ q : Fin 1, oneMat1 i q * Real.log (halfVec1 q)) =
        2 * (vLL_complete_sparse_bernoulli_undirected_nocovariate oneMat1
            oneMat1 oneMat1 halfMat1 halfVec1 -
          (∑ i, ∑ q : Fin 1, oneMat1 i q * Real.log (halfVec1 q))) :=
  ⟨rfl, fun _ _ => by norm_num [halfMat1],
    C5_directed_vs_undirected_factor_two oneMat1 oneMat1 oneMat1 halfMat1
      halfVec1 rfl rfl (fun _ _ => by norm_num [halfMat1])⟩

/-- The softmax denominator is strictly positive. -/
theorem softmaxRow_den_pos {Q : ℕ} [NeZero Q] (x : Fin Q → ℝ) :
    0 < ∑ l, Real.exp (x l - rowMax x) := by
  haveI : Nonempty (Fin Q) := ⟨⟨0, Nat.pos_of_ne_zero (NeZero.ne Q)⟩⟩
  exact Finset.sum_pos (fun l _ => Real.exp_pos _) Finset.univ_nonempty

/-- Every softmax output is non-negative. -/
theorem softmaxRow_nonneg {Q : ℕ} [NeZero Q] (x : Fin Q → ℝ) (q : Fin Q) :
    0 ≤ softmaxRow x q :=
  div_nonneg (Real.exp_pos _).le (softmaxRow_den_pos x).le

/-- Every softmax row sums to 1. -/
theorem softmaxRow_sum_one {Q : ℕ} [NeZero Q] (x : Fin Q → ℝ) :
    ∑ q, softmaxRow x q = 1 := by
  unfold softmaxRow
  rw [← Finset.sum_div]
  exact div_self (softmaxRow_den_pos x).ne'

/-- C3: after the final row-wise softmax of each E-step variant, every
entry is non-negative and every row sums to 1, for all (finite real)
inputs and all three E-step variants. -/
theorem C3_estep_rows_stochastic {N Q : ℕ} [NeZero Q] :
    (∀ (Y R : Matrix (Fin N) (Fin N) ℝ) (Z : Matrix (Fin N) (Fin Q) ℝ)
        (theta : Matrix (Fin Q) (Fin Q) ℝ) (pi : Fin Q → ℝ) (log_lambda : ℝ),
      (∀ i q, 0 ≤ E_step_sparse_bernoulli_undirected_nocovariate Y R Z theta
          pi log_lambda i q) ∧
        (∀ i, ∑ q, E_step_sparse_bernoulli_undirected_nocovariate Y R Z theta
          pi log_lambda i q = 1)) ∧
      (∀ (Y R : Matrix (Fin N) (Fin N) ℝ) (Z : Matrix (Fin N) (Fin Q) ℝ)
          (theta : Matrix (Fin Q) (Fin Q) ℝ) (pi : Fin Q → ℝ) (log_lambda : ℝ),
        (∀ i q, 0 ≤ E_step_sparse_bernoulli_directed_nocovariate Y R Z theta
            pi log_lambda i q) ∧
          (∀ i, ∑ q, E_step_sparse_bernoulli_directed_nocovariate Y R Z theta
            pi log_lambda i q = 1)) ∧
      (∀ (Y R M : Matrix (Fin N) (Fin N) ℝ) (Z : Matrix (Fin N) (Fin Q) ℝ)
          (Gamma : Matrix (Fin Q) (Fin Q) ℝ) (pi : Fin Q → ℝ),
        (∀ i q, 0 ≤ E_step_sparse_bernoulli_undirected_covariates Y R M Z
            Gamma pi i q) ∧
          (∀ i, ∑ q, E_step_sparse_bernoulli_undirected_covariates Y R M Z
            Gamma pi i q = 1)) :=
  ⟨fun _ _ _ _ _ _ =>
      ⟨fun _ q => softmaxRow_nonneg _ q, fun _ => softmaxRow_sum_one _⟩,
    fun _ _ _ _ _ _ =>
      ⟨fun _ q => softmaxRow_nonneg _ q, fun _ => softmaxRow_sum_one _⟩,
    fun _ _ _ _ _ _ =>
      ⟨fun _ q => softmaxRow_nonneg _ q, fun _ => softmaxRow_sum_one _⟩⟩

/-- Witness for C3 at `N = Q = 1` with concrete inputs for each variant. -/
theorem C3_estep_rows_stochastic_witness :
    (1 : ℕ) ≠ 0 ∧
      (0 ≤ E_step_sparse_bernoulli_undirected_nocovariate oneMat1 oneMat1
          oneMat1 halfMat1 halfVec1 0 0 0 ∧
        ∑ q, E_step_sparse_bernoulli_undirected_nocovariate oneMat1 oneMat1
          oneMat1 halfMat1 halfVec1 0 0 q = 1) ∧
      (0 ≤ E_step_sparse_bernoulli_directed_nocovariate oneMat1 oneMat1
          oneMat1 halfMat1 halfVec1 0 0 0 ∧
        ∑ q, E_step_sparse_bernoulli_directed_nocovariate oneMat1 oneMat1
          oneMat1 halfMat1 halfVec1 0 0 q = 1) ∧
      (0 ≤ E_step_sparse_bernoulli_undirected_covariates oneMat1 oneMat1
          oneMat1 oneMat1 halfMat1 halfVec1 0 0 ∧
        ∑ q, E_step_sparse_bernoulli_undirected_covariates oneMat1 oneMat1
          oneMat1 oneMat1 halfMat1 halfVec1 0 q = 1) :=
  ⟨one_ne_zero,
    ⟨((C3_estep_rows_stochastic (N := 1) (Q := 1)).1 oneMat1 oneMat1 oneMat1
        halfMat1 halfVec1 0).1 0 0,
      ((C3_estep_rows_stochastic (N := 1) (Q := 1)).1 oneMat1 oneMat1 oneMat1
        halfMat1 halfVec1 0).2 0⟩,
    ⟨((C3_estep_rows_stochastic (N := 1) (Q := 1)).2.1 oneMat1 oneMat1 oneMat1
        halfMat1 halfVec1 0).1 0 0,
      ((C3_estep_rows_stochastic (N := 1) (Q := 1)).2.1 oneMat1 oneMat1
        oneMat1 halfMat1 halfVec1 0).2 0⟩,
    ⟨((C3_estep_rows_stochastic (N := 1) (Q := 1)).2.2 oneMat1 oneMat1 oneMat1
        oneMat1 halfMat1 halfVec1).1 0 0,
      ((C3_estep_rows_stochastic (N := 1) (Q := 1)).2.2 oneMat1 oneMat1
        oneMat1 oneMat1 halfMat1 halfVec1).2 0⟩⟩

/-- C2: the covariate M-step returns as objective the negation of the sum,
over every nonzero entry `(i,j)` of `R` with `i > j`, of
`Σ_{q,l} Z(i,q)·Z(j,l)·(Y(i,j)·(Gamma(q,l)+mu) − log(1+exp(Gamma(q,l)+mu)))`
with `mu = beta·X(i,j,·)`, and as gradient the negated concatenation of
the column-vectorised `Gamma` gradient (sum over those dyads of
`delta = (Z_i ⊗ Z_j) ⊙ (Y(i,j) − sigmoid(Gamma+mu))`) followed by the
`beta` gradient (sum of `sum(delta)·X(i,j,·)`), where `Gamma` and `beta`
are unpacked column-major from the flat length-`Q²+K` parameter vector. -/
theorem C2_mstep_covariates_objective_and_gradient {N Q K : ℕ}
    (param : Fin (Q * Q + K) → ℝ) (Y R : Matrix (Fin N) (Fin N) ℝ)
    (X : Fin N → Fin N → Fin K → ℝ) (Z : Matrix (Fin N) (Fin Q) ℝ) :
    (M_step_sparse_bernoulli_undirected_covariates param Y R X Z).1 =
        -(∑ i, ∑ j, if R i j ≠ 0 ∧ j < i then
            ∑ q, ∑ l, (Z i q * Z j l) *
              (Y i j * (gammaOf param q l + ∑ k, betaOf param k * X i j k) -
                Real.log (1 + Real.exp
                  (gammaOf param q l + ∑ k, betaOf param k * X i j k)))
          else 0) ∧
      (∀ q l : Fin Q,
        (M_step_sparse_bernoulli_undirected_covariates param Y R X Z).2
            ⟨q.val + Q * l.val, gammaIdx_lt q l⟩ =
          -(∑ i, ∑ j, if R i j ≠ 0 ∧ j < i then
              (Z i q * Z j l) *
                (Y i j - sigmoid (gammaOf param q l +
                  ∑ k, betaOf param k * X i j k))
            else 0)) ∧
      (∀ k : Fin K,
        (M_step_sparse_bernoulli_undirected_covariates param Y R X Z).2
            ⟨Q * Q + k.val, Nat.add_lt_add_left k.isLt (Q * Q)⟩ =
          -(∑ i, ∑ j, if R i j ≠ 0 ∧ j < i then
              (∑ q, ∑ l, (Z i q * Z j l) *
                (Y i j - sigmoid (gammaOf param q l +
                  ∑ k2, betaOf param k2 * X i j k2))) * X i j k
            else 0)) := by
  refine ⟨rfl, fun q l => ?_, fun k => ?_⟩
  · have e1 : (q.val + Q * l.val) % Q = q.val := by
      rw [Nat.add_mul_mod_self_left]
      exact Nat.mod_eq_of_lt q.isLt
    have e2 : (q.val + Q * l.val) / Q = l.val := by
      rw [Nat.add_mul_div_left _ _ q.pos]
      simp [Nat.div_eq_of_lt q.isLt]
    simp only [M_step_sparse_bernoulli_undirected_covariates]
    rw [dif_pos (gammaIdx_lt_sq q l)]
    have hfq : (⟨(q.val + Q * l.val) % Q,
        modIdx_lt (gammaIdx_lt_sq q l)⟩ : Fin Q) = q := Fin.ext e1
    have hfl : (⟨(q.val + Q * l.val) / Q,
        divIdx_lt (gammaIdx_lt_sq q l)⟩ : Fin Q) = l := Fin.ext e2
    rw [hfq, hfl]
    rfl
  · simp only [M_step_sparse_bernoulli_undirected_covariates]
    rw [dif_neg (Nat.not_lt.mpr (Nat.le_add_right (Q * Q) k.val))]
    have hfk : (⟨Q * Q + k.val - Q * Q,
        subIdx_lt (Nat.add_lt_add_left k.isLt (Q * Q))
          (Nat.not_lt.mpr (Nat.le_add_right (Q * Q) k.val))⟩ : Fin K) = k :=
      Fin.ext (Nat.add_sub_cancel_left (Q * Q) k.val)
    rw [hfk]
    rfl

/-- C10: the undirected-covariates likelihood evaluator and the
undirected-covariates M-step depend only on the strict lower triangles of
`Y` and `R`: inputs agreeing below the diagonal give identical results,
whatever their diagonals and upper triangles. -/
theorem C10_lower_triangle_determines_covariate_ops {N Q K : ℕ}
    (Y R Y2 R2 M : Matrix (Fin N) (Fin N) ℝ) (Z : Matrix (Fin N) (Fin Q) ℝ)
    (Gamma : Matrix (Fin Q) (Fin Q) ℝ) (pi : Fin Q → ℝ)
    (param : Fin (Q * Q + K) → ℝ) (X : Fin N → Fin N → Fin K → ℝ)
    (hY : ∀ i j : Fin N, j < i → Y i j = Y2 i j)
    (hR : ∀ i j : Fin N, j < i → R i j = R2 i j) :
    vLL_complete_sparse_bernoulli_undirected_covariates Y R M Z Gamma pi =
        vLL_complete_sparse_bernoulli_undirected_covariates Y2 R2 M Z Gamma pi ∧
      M_step_sparse_bernoulli_undirected_covariates param Y R X Z =
        M_step_sparse_bernoulli_undirected_covariates param Y2 R2 X Z := by
  constructor
  · unfold vLL_complete_sparse_bernoulli_undirected_covariates
    rw [lowerTri_sum_congr Y Y2 _ _ hY (fun i j _ => rfl),
      lowerTri_sum_congr R R2 _ _ hR (fun i j _ => rfl)]
  · simp only [M_step_sparse_bernoulli_undirected_covariates]
    rw [Prod.mk.injEq]
    refine ⟨?_, ?_⟩
    · rw [lowerTri_sum_congr R R2 _ _ hR (fun i j hij => by rw [hY i j hij])]
    · funext idx
      by_cases h : idx.val < Q * Q
      · simp only [dif_pos h, Matrix.of_apply]
        rw [lowerTri_sum_congr R R2 _ _ hR (fun i j hij => by
          rw [hY i j hij])]
      · simp only [dif_neg h]
        unfold accu
        simp only [Matrix.of_apply]
        rw [lowerTri_sum_congr R R2 _ _ hR (fun i j hij => by
          rw [hY i j hij])]

/-- Witness for C10: `Yw/Yw2` and `Rw/Rw2` agree at the single
strict-lower-triangle entry `(1,0)` and differ elsewhere. -/
theorem C10_lower_triangle_determines_covariate_ops_witness :
    (∀ i j : Fin 2, j < i → Yw i j = Yw2 i j) ∧
      (∀ i j : Fin 2, j < i → Rw i j = Rw2 i j) ∧
      (vLL_complete_sparse_bernoulli_undirected_covariates Yw Rw Mw Zw
          Gammaw halfVec1 =
        vLL_complete_sparse_bernoulli_undirected_covariates Yw2 Rw2 Mw Zw
          Gammaw halfVec1 ∧
      M_step_sparse_bernoulli_undirected_covariates paramw Yw Rw Xw Zw =
        M_step_sparse_bernoulli_undirected_covariates paramw Yw2 Rw2 Xw Zw) :=
  ⟨fun i j hij => by
      fin_cases i <;> fin_cases j <;>
        first
          | exact absurd hij (by decide)
          | norm_num [Yw, Yw2],
    fun i j hij => by
      fin_cases i <;> fin_cases j <;>
        first
          | exact absurd hij (by decide)
          | norm_num [Rw, Rw2],
    C10_lower_triangle_determines_covariate_ops Yw Rw Yw2 Rw2 Mw Zw Gammaw
      halfVec1 paramw Xw
      (fun i j hij => by
        fin_cases i <;> fin_cases j <;>
          first
            | exact absurd hij (by decide)
            | norm_num [Yw, Yw2])
      (fun i j hij => by
        fin_cases i <;> fin_cases j <;>
          first
            | exact absurd hij (by decide)
            | norm_num [Rw, Rw2])⟩

end

end MissSBM
